import Mathlib

/-!
Verification of the segment-lookup SNARK core (`ark-segmentlookup`).

The Rust sources represent polynomials as dense little-endian coefficient
vectors (`ark_poly::DensePolynomial`).  We mirror that representation with
plain `List F` coefficient vectors and executable arithmetic, so that the
model can be run on concrete inputs.  Radix-2 FFT interpolation
(`EvaluationDomain::ifft`) is an external `ark-poly` facility; models take
it as a function parameter together with its defining property
(evaluating the interpolation at a domain point returns the input value).
-/

namespace SegLookup

/-! ## Definitions: the shallow embedding of the source -/

section Defs

variable {F : Type} [Field F] [DecidableEq F]
variable {G : Type} [AddCommGroup G] [Module F G]

/-- Dense little-endian coefficient vector, as in `DensePolynomial`:
`[c0, c1, c2]` represents `c0 + c1 X + c2 X^2`. -/
abbrev PolyL (F : Type) := List F

/-- Coefficient-wise addition of dense polynomials. -/
def polyAdd : PolyL F → PolyL F → PolyL F
  | [], q => q
  | p, [] => p
  | a :: p, b :: q => (a + b) :: polyAdd p q

/-- Coefficient-wise negation. -/
def polyNeg (p : PolyL F) : PolyL F := p.map Neg.neg

/-- Subtraction of dense polynomials. -/
def polySub (p q : PolyL F) : PolyL F := polyAdd p (polyNeg q)

/-- Multiplication of a dense polynomial by a scalar. -/
def polySmul (c : F) (p : PolyL F) : PolyL F := p.map (c * ·)

/-- Product of dense polynomials (convolution of coefficients). -/
def polyMul : PolyL F → PolyL F → PolyL F
  | [], _ => []
  | a :: p, q => polyAdd (polySmul a q) ((0 : F) :: polyMul p q)

/-- Horner evaluation of a dense polynomial. -/
def polyEval (p : PolyL F) (x : F) : F := p.foldr (fun c acc => c + x * acc) 0

/-- Fuel-driven long division by `X^m - 1`, using
`p = (X^m - 1)·H + (L + H)` for `p = L + X^m·H` with `deg L < m`.
Each step strictly shrinks the coefficient vector, so fuel `p.length`
(as supplied by `divModXmSubOne`) is never exhausted and the function
computes the Euclidean quotient and remainder. -/
def divModAux : ℕ → ℕ → PolyL F → PolyL F × PolyL F
  | 0, _, p => ([], p)
  | fuel + 1, m, p =>
    if m = 0 ∨ p.length ≤ m then ([], p)
    else
      let res := divModAux fuel m (polyAdd (p.take m) (p.drop m))
      (polyAdd (p.drop m) res.1, res.2)

/-- Quotient and remainder of division by `X^m - 1`: the semantics of both
`DensePolynomial::div` with a radix-2 vanishing polynomial as divisor and
`divide_by_vanishing_poly` on a radix-2 domain of size `m`. -/
def divModXmSubOne (m : ℕ) (p : PolyL F) : PolyL F × PolyL F :=
  divModAux p.length m p

/-- Modelled from the spec: the error taxonomy of `error.rs` (the file itself
is not among the provided sources; the variants are the ones constructed by
`prover.rs`, `multi_unity.rs`, `witness.rs` and `public_parameters.rs`).
`PanicIndexOutOfBounds` is not an `Error` variant of the Rust code: it models
a Rust out-of-bounds slice index, i.e. abnormal termination by panic, as a
distinguished outcome so that panics are not conflated with returned errors. -/
inductive Error where
  | InvalidSegmentIndex : ℕ → Error
  | InvalidNumberOfQueries : ℕ → Error
  | InvalidSegmentElementIndex : ℕ → Error
  | InvalidNumerOfSegments : ℕ → Error
  | FailedToInverseFieldElement : Error
  | FailedToDivideByVanishingPolynomial : Error
  | RemainderAfterDivisionIsNonZero : Error
  | FailedToCreateEvaluationDomain : Error
  | PanicIndexOutOfBounds : Error
  deriving DecidableEq, Repr

instance {ε α : Type} [DecidableEq ε] [DecidableEq α] : DecidableEq (Except ε α) :=
  fun x y =>
    match x, y with
    | .ok a, .ok b =>
      if h : a = b then isTrue (by rw [h]) else isFalse (fun hc => h (Except.ok.inj hc))
    | .error e, .error f =>
      if h : e = f then isTrue (by rw [h]) else isFalse (fun hc => h (Except.error.inj hc))
    | .ok _, .error _ => isFalse (fun hc => Except.noConfusion hc)
    | .error _, .ok _ => isFalse (fun hc => Except.noConfusion hc)

/-- One `or_insert(0); += 1` step of the `BTreeMap<usize, usize>` in
`segment_multiplicities` (`prover.rs` lines 176-184), on the map represented
as a key-sorted association list. -/
def bumpKey : List (ℕ × ℕ) → ℕ → List (ℕ × ℕ)
  | [], i => [(i, 1)]
  | (k, m) :: rest, i =>
    if i < k then (i, 1) :: (k, m) :: rest
    else if i = k then (k, m + 1) :: rest
    else (k, m) :: bumpKey rest i

/-- Loop body of `segment_multiplicities` (`prover.rs` lines 172-187): every
queried index is range-checked with `i > num_segments` and then counted. -/
def segMultGo (numSegments : ℕ) (acc : List (ℕ × ℕ)) :
    List ℕ → Except Error (List (ℕ × ℕ))
  | [] => .ok acc
  | i :: rest =>
    if i > numSegments then .error (.InvalidSegmentIndex i)
    else segMultGo numSegments (bumpKey acc i) rest

/-- `segment_multiplicities` of `prover.rs`: occurrence count of each queried
segment index, with the per-index range check. -/
def segmentMultiplicities (queriedSegmentIndices : List ℕ) (numSegments : ℕ) :
    Except Error (List (ℕ × ℕ)) :=
  segMultGo numSegments [] queriedSegmentIndices

/-- The data of `Witness` (`witness.rs`) that the claims are about. -/
structure WitnessRec (F : Type) where
  polyF : PolyL F
  polyEvalListF : List F
  segmentIndices : List ℕ

/-- The body of the inner loop of `Witness::new` (`witness.rs` lines 32-39):
the derived table-element index `segment_index * segment_size + j` is
range-checked against the table length. -/
def rangeCheckIdx (segmentSize tableLen seg j : ℕ) : Except Error ℕ :=
  if seg * segmentSize + j ≥ tableLen then
    .error (.InvalidSegmentElementIndex (seg * segmentSize + j))
  else .ok (seg * segmentSize + j)

/-- The index-collection loop of `Witness::new` (`witness.rs` lines 29-40). -/
def segmentElementIndices (segmentSize tableLen : ℕ) :
    List ℕ → Except Error (List ℕ)
  | [] => .ok []
  | seg :: rest => do
    let firstIdxs ← (List.range segmentSize).mapM (rangeCheckIdx segmentSize tableLen seg)
    let restIdxs ← segmentElementIndices segmentSize tableLen rest
    .ok (firstIdxs ++ restIdxs)

/-- `Witness::new` (`witness.rs` lines 20-56).  `ifftV` stands for the
external `ark-poly` interpolation `pp.domain_v.ifft` over the witness
domain `V`. -/
def witnessNew (numWitnessSegments segmentSize : ℕ) (ifftV : List F → PolyL F)
    (tableValues : List F) (queriedSegmentIndices : List ℕ) :
    Except Error (WitnessRec F) :=
  if queriedSegmentIndices.length ≠ numWitnessSegments then
    .error (.InvalidNumberOfQueries queriedSegmentIndices.length)
  else
    match segmentElementIndices segmentSize tableValues.length
        queriedSegmentIndices with
    | .error e => .error e
    | .ok idxs =>
      let polyEvalListF := idxs.map (fun i => tableValues.getD i 0)
      .ok ⟨ifftV polyEvalListF, polyEvalListF, queriedSegmentIndices⟩

/-- `Witness::new_with_padding` (`witness.rs` lines 58-67): `Vec::resize`
truncates a longer index list to `k` entries and pads a shorter one with
segment index `0`, then delegates to `Witness::new`. -/
def witnessNewWithPadding (numWitnessSegments segmentSize : ℕ)
    (ifftV : List F → PolyL F) (tableValues : List F)
    (queriedSegmentIndices : List ℕ) : Except Error (WitnessRec F) :=
  let resized := queriedSegmentIndices.take numWitnessSegments ++
    List.replicate (numWitnessSegments - queriedSegmentIndices.length) 0
  witnessNew numWitnessSegments segmentSize ifftV tableValues resized

/-- `X^m - 1` as a dense coefficient vector: the vanishing polynomial of a
radix-2 evaluation domain of size `m ≥ 1`. -/
def vanishingPoly (m : ℕ) : PolyL F := ((-1 : F) :: List.replicate (m - 1) 0) ++ [1]

/-- `is_zero` on a dense polynomial: all coefficients vanish. -/
def isZeroPoly (p : PolyL F) : Bool := p.all (fun c => decide (c = 0))

/-- Fuel-driven halving loop behind `isPow2`; fuel `n` is never exhausted. -/
def isPow2Aux : ℕ → ℕ → Bool
  | _, 0 => false
  | _, 1 => true
  | 0, _ + 2 => false
  | fuel + 1, n + 2 => decide ((n + 2) % 2 = 0) && isPow2Aux fuel ((n + 2) / 2)

/-- `num_segments.is_power_of_two()` (`multi_unity.rs` line 46). -/
def isPow2 (n : ℕ) : Bool := isPow2Aux n n

/-- `blinded_vanishing_poly` (`multi_unity.rs` lines 255-266): a random
scalar multiple of the vanishing polynomial of domain `K`. -/
def blindedVanishingPoly (zK : PolyL F) (randScalar : F) : PolyL F :=
  polySmul randScalar zK

/-- The in-place squaring of the evaluation vector
(`multi_unity.rs` lines 64-66). -/
def squareEvals (es : List F) : List F := es.map (fun e => e * e)

/-- `pp.domain_k.fft(&d_coefficients)` (`multi_unity.rs` line 53):
evaluations of `D` at the points of domain `K`, in domain order. -/
def dEvaluations (kNodes : List F) (dPoly : PolyL F) : List F :=
  kNodes.map (polyEval dPoly)

/-- The squaring loop of `multi_unity_prove` (`multi_unity.rs` lines 62-73):
`U_l(X)`, `l = 1, …, log(n) - 1`, the interpolation over `K` of the
`2^l`-th powers of `D`'s evaluations, blinded by a random multiple of
`Z_K(X)`.  List entry `j` holds `U_{j+1}`; `rand j` is the `j`-th scalar
drawn from the randomness source. -/
def uPolyList (logn k : ℕ) (kNodes : List F) (interpK : List F → PolyL F)
    (dPoly : PolyL F) (rand : ℕ → F) : List (PolyL F) :=
  (List.range (logn - 1)).map (fun j =>
    polyAdd (interpK (squareEvals^[j + 1] (dEvaluations kNodes dPoly)))
      (blindedVanishingPoly (vanishingPoly k) (rand j)))

/-- `pp.id_poly` as built by `PublicParameters::setup`
(`public_parameters.rs` lines 175-179): the interpolation over `K` of the
all-ones vector. -/
def idPolyK (k : ℕ) (interpK : List F → PolyL F) : PolyL F :=
  interpK (List.replicate k 1)

/-- The full squaring chain `U_0 = D, U_1, …, U_{log n - 1}, id`
(`multi_unity.rs` lines 95-100). -/
def uPolyChain (logn k : ℕ) (kNodes : List F) (interpK : List F → PolyL F)
    (dPoly : PolyL F) (rand : ℕ → F) : List (PolyL F) :=
  dPoly :: uPolyList logn k kNodes interpK dPoly rand ++ [idPolyK k interpK]

/-- The quotient loop of `multi_unity_prove` (`multi_unity.rs` lines
103-116): for each consecutive pair `(U_{s-1}, U_s)` of the chain, divide
`U_{s-1}^2 - U_s` by the vanishing polynomial of `K` and abort with
`RemainderAfterDivisionIsNonZero` on the first non-zero remainder. -/
def chainCheck (k : ℕ) : List (PolyL F) → Except Error (List (PolyL F))
  | p :: q :: rest =>
    let qr := divModXmSubOne k (polySub (polyMul p p) q)
    if isZeroPoly qr.2 then do
      let hs ← chainCheck k (q :: rest)
      .ok (qr.1 :: hs)
    else .error .RemainderAfterDivisionIsNonZero
  | _ => .ok []

/-- `multi_unity_prove` (`multi_unity.rs` lines 36-116), up to the point
where the squaring chain has been checked.  Everything after the chain
check (bivariate packing commitments, openings) is the abstract
continuation `rest`; it receives the quotients `H_s`.  The access
`u_poly_list[0]` at line 78 panics when the list is empty (`log n = 1`),
modelled by `PanicIndexOutOfBounds`. -/
def multiUnityProveModel {P : Type} (n logn k : ℕ) (kNodes : List F)
    (interpK : List F → PolyL F) (dPoly : PolyL F) (rand : ℕ → F)
    (rest : List (PolyL F) → Except Error P) : Except Error P :=
  if ¬ isPow2 n then .error (.InvalidNumerOfSegments n)
  else if (uPolyList logn k kNodes interpK dPoly rand).isEmpty then
    .error .PanicIndexOutOfBounds
  else
    match chainCheck k (uPolyChain logn k kNodes interpK dPoly rand) with
    | .error e => .error e
    | .ok hs => rest hs

instance : Fact (Nat.Prime 5) := ⟨by norm_num⟩

instance : Fact (Nat.Prime 17) := ⟨by norm_num⟩

/-- Concrete inverse FFT over the size-2 domain `{1, -1}` of `ZMod 5`
(an instance of the external `ark-poly` `domain_k.ifft`). -/
def interp2 : List (ZMod 5) → PolyL (ZMod 5)
  | [e0, e1] => [(e0 + e1) * 3, (e0 - e1) * 3]
  | es => es

/-- Modelled from the spec (`domain.rs` is not among the provided sources):
`roots_of_unity(&domain)` lists the domain elements in order, the powers
`w^0, w^1, …, w^(N-1)` of the domain generator. -/
def rootsOfUnity (w : F) (N : ℕ) : List F := (List.range N).map (w ^ ·)

/-- The polynomial data computed by `index_polynomials_and_quotients_g1`
(`prover.rs` lines 247-332); group commitments are omitted, the committed
polynomials are kept. -/
structure IndexPolysOut (F : Type) where
  polyEvalListL : List F
  polyD : PolyL F
  polyL : PolyL F
  polyLmulV : PolyL F
  polyWmulL : PolyL F
  polyQL : PolyL F
  polyQD : PolyL F

/-- `index_polynomials_and_quotients_g1` (`prover.rs` lines 247-332), at the
polynomial level.  `interpV`/`interpK` stand for the external `ark-poly`
interpolations `domain_v.ifft`/`domain_k.ifft`.  Note the order of
operations on `poly_q_l` (lines 312-314): the code divides
`L(Xv) - w·L(X)` by `Z_V` first and multiplies by `X^k - 1` afterwards. -/
def indexPolynomialsAndQuotients (w v : F) (ns ks k s : ℕ)
    (interpV interpK : List F → PolyL F) (qs : List ℕ) : IndexPolysOut F :=
  let rootsW := rootsOfUnity w ns
  let evalsL := qs.flatMap (fun seg =>
    (List.range s).map (fun j => rootsW.getD (seg * s + j) 0))
  let evalsD := qs.map (fun seg => rootsW.getD (seg * s) 0)
  let polyD := interpK evalsD
  let coeffsL := interpV evalsL
  let polyLmulV := coeffsL.mapIdx (fun i c => c * (rootsOfUnity v ks).getD i 0)
  let generatorW := rootsW.getD 1 0
  let polyWmulL := polySmul generatorW coeffsL
  let polyXPowKSubOne := ((List.replicate ks (0 : F)).set k 1).set 0 (-1)
  let polyQL :=
    polyMul ((divModXmSubOne ks (polySub polyLmulV polyWmulL)).1) polyXPowKSubOne
  let polyQD := (divModXmSubOne k (polySub coeffsL polyD)).1
  ⟨evalsL, polyD, coeffsL, polyLmulV, polyWmulL, polyQL, polyQD⟩

/-- Concrete inverse FFT over the size-4 domain `{1, 4, 16, 13}` of
`ZMod 17` (generator `4`, `4⁻¹ = 13`), an instance of `domain_v.ifft`. -/
def interp4 : List (ZMod 17) → PolyL (ZMod 17)
  | [e0, e1, e2, e3] =>
    [13 * (e0 + e1 + e2 + e3),
     13 * (e0 + 13 * e1 + 16 * e2 + 4 * e3),
     13 * (e0 + 16 * e1 + e2 + 16 * e3),
     13 * (e0 + 4 * e1 + 16 * e2 + 13 * e3)]
  | es => es

/-- Concrete inverse FFT over the size-2 domain `{1, 16}` of `ZMod 17`
(`2⁻¹ = 9`), an instance of `domain_k.ifft`. -/
def interp2z17 : List (ZMod 17) → PolyL (ZMod 17)
  | [e0, e1] => [9 * (e0 + e1), 9 * (e0 - e1)]
  | es => es

/-- Fuel-driven `usize::trailing_zeros` on a non-zero input
(`public_parameters.rs` line 160: `num_table_segments.trailing_zeros()`);
fuel `n` is never exhausted. -/
def trailingZerosAux : ℕ → ℕ → ℕ
  | _, 0 => 0
  | 0, _ + 1 => 0
  | fuel + 1, n + 1 =>
    if (n + 1) % 2 = 1 then 0 else trailingZerosAux fuel ((n + 1) / 2) + 1

/-- `n.trailing_zeros()`: the 2-adic valuation of `n` (0 for `n = 0`
is irrelevant here; the code only applies it to a power of two). -/
def trailingZeros (n : ℕ) : ℕ := trailingZerosAux n n

/-- Fuel-driven `usize::next_power_of_two`: double `power` until it
reaches `n`; fuel `n` is enough since `n < 2^n`. -/
def nextPow2Aux : ℕ → ℕ → ℕ → ℕ
  | 0, _, power => power
  | fuel + 1, n, power =>
    if n ≤ power then power else nextPow2Aux fuel n (power * 2)

/-- `n.next_power_of_two()`, the size chosen by
`Radix2EvaluationDomain::new(n)`. -/
def nextPow2 (n : ℕ) : ℕ := nextPow2Aux n n 1

/-- The size of the small Multi-Unity domain built by
`PublicParameters::setup` (`public_parameters.rs` lines 160-163):
`Radix2EvaluationDomain::new(log_num_segments)` rounds the requested size
up to the next power of two. -/
def setupDomainLogNSize (n : ℕ) : ℕ := nextPow2 (trailingZeros n)

/-- The `Proof` bundle (`prover.rs` lines 19-35): twelve G1 commitments and
the Multi-Unity sub-proof.  `G` abstracts `E::G1Affine`, `M` the
`MultiUnityProof`. -/
structure ProofRec (G M : Type) where
  g1_m : G
  g1_m_div_w : G
  g1_q_m : G
  g1_l : G
  g1_l_mul_v : G
  g1_q_l : G
  g1_d : G
  g1_q_d : G
  g1_a : G
  g1_q_a : G
  g1_b : G
  g1_q_b : G
  multiUnityProof : M
  deriving DecidableEq

/-- `prove` (`prover.rs` lines 37-170) as a pipeline.  The pure
sub-computations that do not touch the randomness source are abstract
function parameters: `multComms` is `multiplicity_polynomials_and_quotient_g1`
(sparse MSMs against the precomputed tables), `indexComms` is the
commitment part of `index_polynomials_and_quotients_g1` together with the
polynomial `D` it returns, `muRest` is the tail of `multi_unity_prove`
after the squaring-chain check, and `round10` covers the Fiat-Shamir
challenges `beta`, `delta` and the fractional-decomposition computations of
rounds 9-10 (fallible through `FailedToInverseFieldElement`), returning
`([A]_1, [Q_A]_1, [B]_1)`.  The randomness source `rand` is consumed only
by the Multi-Unity blinding, as in the code (`rng` is passed only to
`multi_unity_prove`).  The quotient commitment for `B` is assembled as
`E::G1Affine::default()` (line 167), the fixed element `g1Default`. -/
def proveModel {G M : Type} (numSegments logn ksize : ℕ) (kNodes : List F)
    (interpK : List F → PolyL F)
    (multComms : List (ℕ × ℕ) → G × G × G)
    (indexComms : List ℕ → (G × G × G × G × G) × PolyL F)
    (muRest : List (PolyL F) → Except Error M)
    (round10 : M → Except Error (G × G × G))
    (g1Default : G)
    (queriedSegmentIndices : List ℕ)
    (rand : ℕ → F) : Except Error (ProofRec G M) := do
  let mult ← segmentMultiplicities queriedSegmentIndices numSegments
  let (g1m, g1mdivw, g1qm) := multComms mult
  let ((g1l, g1lmulv, g1d, g1ql, g1qd), polyD) :=
    indexComms queriedSegmentIndices
  let mu ← multiUnityProveModel numSegments logn ksize kNodes interpK polyD
    rand muRest
  let (g1a, g1qa, g1b) ← round10 mu
  .ok ⟨g1m, g1mdivw, g1qm, g1l, g1lmulv, g1ql, g1d, g1qd, g1a, g1qa, g1b,
    g1Default, mu⟩

open Polynomial in
/-- Modelled from the spec (`kzg.rs` is not among the provided sources):
a KZG commitment is a single multi-scalar multiplication of the
polynomial's coefficients against the SRS. -/
def msmCommit (srs : List G) (p : PolyL F) : G :=
  (List.zipWith (fun c g => c • g) p srs).sum

/-- The `quotient_values` of `PublicParameters::setup`
(`public_parameters.rs` lines 95-99): `w^i / (n·s)` for each root of
unity of domain `W`. -/
def q2Values (w : F) (orderW : ℕ) : List F :=
  (rootsOfUnity w orderW).map (fun x => x / (orderW : F))

/-- `g1_q2_list` of `PublicParameters::setup` (`public_parameters.rs`
lines 100-103): each quotient value committed as `g1_srs[0] * x`. -/
def g1Q2List (srs : List G) (w : F) (orderW : ℕ) : List G :=
  (q2Values w orderW).map (fun x => x • srs.getD 0 0)

end Defs

/-! ## Theorems -/

section Thms

variable {F : Type} [Field F] [DecidableEq F]
variable {G : Type} [AddCommGroup G] [Module F G]

@[simp] theorem polyEval_nil (x : F) : polyEval ([] : PolyL F) x = 0 := rfl

@[simp] theorem polyEval_cons (c : F) (p : PolyL F) (x : F) :
    polyEval (c :: p) x = c + x * polyEval p x := rfl

theorem polyEval_add (p q : PolyL F) (x : F) :
    polyEval (polyAdd p q) x = polyEval p x + polyEval q x := by
  induction p generalizing q with
  | nil => simp [polyAdd]
  | cons a p ih =>
    cases q with
    | nil => simp [polyAdd]
    | cons b q => simp [polyAdd, ih]; ring

theorem polyEval_neg (p : PolyL F) (x : F) :
    polyEval (polyNeg p) x = -polyEval p x := by
  induction p with
  | nil => simp [polyNeg]
  | cons a p ih => simp [polyNeg, polyEval_cons] at *; rw [ih]; ring

theorem polyEval_sub (p q : PolyL F) (x : F) :
    polyEval (polySub p q) x = polyEval p x - polyEval q x := by
  rw [polySub, polyEval_add, polyEval_neg]; ring

theorem polyEval_smul (c : F) (p : PolyL F) (x : F) :
    polyEval (polySmul c p) x = c * polyEval p x := by
  induction p with
  | nil => simp [polySmul]
  | cons a p ih => simp [polySmul, polyEval_cons] at *; rw [ih]; ring

theorem polyEval_mul (p q : PolyL F) (x : F) :
    polyEval (polyMul p q) x = polyEval p x * polyEval q x := by
  induction p with
  | nil => simp [polyMul]
  | cons a p ih =>
    simp [polyMul, polyEval_add, polyEval_smul, polyEval_cons, ih]; ring

theorem polyEval_take_drop (m : ℕ) (p : PolyL F) (x : F) :
    polyEval p x = polyEval (p.take m) x + x ^ m * polyEval (p.drop m) x := by
  induction m generalizing p with
  | zero => simp
  | succ m ih =>
    cases p with
    | nil => simp
    | cons c p =>
      simp only [List.take_succ_cons, List.drop_succ_cons, polyEval_cons, ih p, pow_succ]
      ring

theorem length_polyAdd (p q : PolyL F) :
    (polyAdd p q).length = max p.length q.length := by
  induction p generalizing q with
  | nil => simp [polyAdd]
  | cons a p ih =>
    cases q with
    | nil => simp [polyAdd]
    | cons b q => simp [polyAdd, ih, Nat.succ_max_succ]

theorem divModAux_eval (fuel m : ℕ) (p : PolyL F) (x : F) :
    polyEval p x =
      polyEval (divModAux fuel m p).1 x * (x ^ m - 1) +
        polyEval (divModAux fuel m p).2 x := by
  induction fuel generalizing p with
  | zero => simp [divModAux]
  | succ fuel ih =>
    rw [divModAux]
    by_cases h : m = 0 ∨ p.length ≤ m
    · rw [if_pos h]; simp
    · rw [if_neg h]
      have ihh := ih (polyAdd (p.take m) (p.drop m))
      rw [polyEval_add] at ihh
      cases hq : divModAux fuel m (polyAdd (p.take m) (p.drop m)) with
      | mk q r =>
        rw [hq] at ihh
        dsimp only
        rw [polyEval_add, polyEval_take_drop m p x]
        linear_combination ihh

theorem divModXmSubOne_eval (m : ℕ) (p : PolyL F) (x : F) :
    polyEval p x =
      polyEval (divModXmSubOne m p).1 x * (x ^ m - 1) +
        polyEval (divModXmSubOne m p).2 x :=
  divModAux_eval p.length m p x

theorem divModXmSubOne_quotient_nil (m : ℕ) (p : PolyL F)
    (h : p.length ≤ m) : (divModXmSubOne m p).1 = [] := by
  rw [divModXmSubOne]
  cases hL : p.length with
  | zero => rfl
  | succ L => rw [divModAux, if_pos (Or.inr (hL ▸ h))]

@[simp] theorem exceptBind_error {ε α β : Type} (e : ε) (f : α → Except ε β) :
    (Except.error e >>= f) = .error e := rfl

@[simp] theorem exceptBind_ok {ε α β : Type} (a : α) (f : α → Except ε β) :
    (Except.ok a >>= f) = f a := rfl

theorem mapM_ok_of_no_error {α β : Type} (f : α → Except Error β) (g : α → β)
    (l : List α) (h : ∀ a ∈ l, f a = .ok (g a)) : l.mapM f = .ok (l.map g) := by
  induction l with
  | nil => rfl
  | cons a l ih =>
    rw [List.mapM_cons, h a (by simp), ih (fun b hb => h b (by simp [hb]))]
    rfl

theorem mapM_error_shape {α β : Type} (f : α → Except Error β) (l : List α)
    (hf : ∀ a ∈ l, ∀ e, f a = .error e → ∃ idx, e = .InvalidSegmentElementIndex idx)
    (e : Error) (he : l.mapM f = .error e) :
    ∃ idx, e = .InvalidSegmentElementIndex idx := by
  induction l with
  | nil =>
    have hnil : List.mapM f ([] : List α) = .ok ([] : List β) := rfl
    rw [hnil] at he
    cases he
  | cons a l ih =>
    rw [List.mapM_cons] at he
    cases hfa : f a with
    | error e2 =>
      rw [hfa, exceptBind_error] at he
      rw [Except.error.injEq] at he
      subst he
      exact hf a (by simp) e2 hfa
    | ok b =>
      rw [hfa, exceptBind_ok] at he
      cases hml : l.mapM f with
      | error e2 =>
        rw [hml, exceptBind_error] at he
        rw [Except.error.injEq] at he
        subst he
        exact ih (fun c hc => hf c (by simp [hc])) hml
      | ok bs =>
        rw [hml, exceptBind_ok] at he
        simp [pure, Except.pure] at he

theorem rangeCheck_inner_ok (n s tableLen seg : ℕ)
    (htable : tableLen = n * s) (hseg : seg < n) :
    (List.range s).mapM (rangeCheckIdx s tableLen seg) =
      .ok ((List.range s).map (seg * s + ·)) := by
  apply mapM_ok_of_no_error
  intro j hj
  have hj2 : j < s := List.mem_range.mp hj
  have hlt : seg * s + j < tableLen := by
    rw [htable]
    calc seg * s + j < seg * s + s := by omega
    _ = (seg + 1) * s := by ring
    _ ≤ n * s := Nat.mul_le_mul_right s hseg
  rw [rangeCheckIdx, if_neg (by omega)]

theorem segmentElementIndices_ok (n s tableLen : ℕ)
    (htable : tableLen = n * s) (qs : List ℕ) (hqs : ∀ seg ∈ qs, seg < n) :
    segmentElementIndices s tableLen qs =
      .ok (qs.flatMap fun seg => (List.range s).map (seg * s + ·)) := by
  induction qs with
  | nil => rfl
  | cons seg rest ih =>
    rw [segmentElementIndices,
      rangeCheck_inner_ok n s tableLen seg htable (hqs seg (by simp)),
      exceptBind_ok, ih (fun b hb => hqs b (by simp [hb])), exceptBind_ok]
    simp [List.flatMap_cons]

theorem segmentElementIndices_error (n s tableLen : ℕ) (hs : 1 ≤ s)
    (htable : tableLen = n * s) (qs : List ℕ) (hbad : ∃ seg ∈ qs, n ≤ seg) :
    ∃ idx, segmentElementIndices s tableLen qs =
      .error (.InvalidSegmentElementIndex idx) := by
  induction qs with
  | nil => simp at hbad
  | cons seg rest ih =>
    by_cases hseg : seg < n
    · have hbad2 : ∃ b ∈ rest, n ≤ b := by
        obtain ⟨b, hb, hnb⟩ := hbad
        rcases List.mem_cons.mp hb with rfl | hb2
        · omega
        · exact ⟨b, hb2, hnb⟩
      obtain ⟨idx, hidx⟩ := ih hbad2
      refine ⟨idx, ?_⟩
      rw [segmentElementIndices, rangeCheck_inner_ok n s tableLen seg htable hseg,
        exceptBind_ok, hidx, exceptBind_error]
    · refine ⟨seg * s, ?_⟩
      have hge : tableLen ≤ seg * s := by
        rw [htable]; exact Nat.mul_le_mul_right s (by omega)
      obtain ⟨q, rfl⟩ : ∃ q, s = q + 1 := ⟨s - 1, by omega⟩
      rw [segmentElementIndices, List.range_succ_eq_map, List.mapM_cons]
      rw [show rangeCheckIdx (q + 1) tableLen seg 0 =
        .error (.InvalidSegmentElementIndex (seg * (q + 1) + 0)) from
          by rw [rangeCheckIdx, if_pos (by omega)]]
      rw [exceptBind_error, exceptBind_error]
      rw [Nat.add_zero]

theorem segmentElementIndices_error_only_element_index (s tableLen : ℕ)
    (qs : List ℕ) (e : Error)
    (he : segmentElementIndices s tableLen qs = .error e) :
    ∃ idx, e = .InvalidSegmentElementIndex idx := by
  induction qs with
  | nil => rw [segmentElementIndices] at he; cases he
  | cons seg rest ih =>
    rw [segmentElementIndices] at he
    cases hm : (List.range s).mapM (rangeCheckIdx s tableLen seg) with
    | error e2 =>
      rw [hm, exceptBind_error, Except.error.injEq] at he
      subst he
      refine mapM_error_shape _ _ ?_ _ hm
      intro a _ e3 he3
      rw [rangeCheckIdx] at he3
      by_cases hc : seg * s + a ≥ tableLen
      · rw [if_pos hc, Except.error.injEq] at he3
        exact ⟨seg * s + a, he3.symm⟩
      · rw [if_neg hc] at he3
        cases he3
    | ok idxs =>
      rw [hm, exceptBind_ok] at he
      cases hr : segmentElementIndices s tableLen rest with
      | error e2 =>
        rw [hr, exceptBind_error, Except.error.injEq] at he
        subst he
        exact ih hr
      | ok idxs2 =>
        rw [hr, exceptBind_ok] at he
        cases he

theorem polyEval_replicate_zero_append_one (j : ℕ) (x : F) :
    polyEval (List.replicate j (0 : F) ++ [1]) x = x ^ j := by
  induction j with
  | zero => simp [polyEval]
  | succ j ih =>
    rw [List.replicate_succ, List.cons_append, polyEval_cons, ih]
    ring

theorem polyEval_vanishingPoly (m : ℕ) (hm : 1 ≤ m) (x : F) :
    polyEval (vanishingPoly m) x = x ^ m - 1 := by
  rw [vanishingPoly, List.cons_append, polyEval_cons,
    polyEval_replicate_zero_append_one]
  have : m - 1 + 1 = m := by omega
  rw [← pow_succ', this]
  ring

theorem polyEval_eq_zero_of_isZeroPoly (p : PolyL F) (hp : isZeroPoly p = true)
    (x : F) : polyEval p x = 0 := by
  induction p with
  | nil => rfl
  | cons c p ih =>
    rw [isZeroPoly, List.all_cons, Bool.and_eq_true] at hp
    rw [polyEval_cons, ih hp.2, decide_eq_true_eq.mp hp.1]
    ring

theorem isPow2Aux_two_pow (m : ℕ) :
    ∀ fuel, 2 ^ m ≤ fuel → isPow2Aux fuel (2 ^ m) = true := by
  induction m with
  | zero =>
    intro fuel hfuel
    rw [pow_zero] at hfuel ⊢
    obtain ⟨f, rfl⟩ : ∃ f, fuel = f + 1 := ⟨fuel - 1, by omega⟩
    rfl
  | succ m ih =>
    intro fuel hfuel
    have h2 : 2 ≤ 2 ^ (m + 1) := by
      calc 2 = 2 ^ 1 := by norm_num
      _ ≤ 2 ^ (m + 1) := Nat.pow_le_pow_right (by norm_num) (by omega)
    have hm : 2 ^ m + 2 ^ m = 2 ^ (m + 1) := by ring
    obtain ⟨j, hj⟩ : ∃ j, 2 ^ (m + 1) = j + 2 := ⟨2 ^ (m + 1) - 2, by omega⟩
    obtain ⟨f, rfl⟩ : ∃ f, fuel = f + 1 := ⟨fuel - 1, by omega⟩
    rw [hj, isPow2Aux]
    have hmod : (j + 2) % 2 = 0 := by omega
    have hdiv : (j + 2) / 2 = 2 ^ m := by omega
    rw [hmod, hdiv, ih f (by omega)]
    simp

theorem isPow2_two_pow (m : ℕ) : isPow2 (2 ^ m) = true :=
  isPow2Aux_two_pow m (2 ^ m) le_rfl

theorem length_squareEvals (es : List F) : (squareEvals es).length = es.length :=
  List.length_map es _

theorem getD_squareEvals (es : List F) (i : ℕ) :
    (squareEvals es).getD i 0 = es.getD i 0 * es.getD i 0 := by
  induction es generalizing i with
  | nil => simp [squareEvals]
  | cons e es ih =>
    cases i with
    | zero => simp [squareEvals]
    | succ i =>
      rw [squareEvals, List.map_cons, List.getD_cons_succ, List.getD_cons_succ]
      exact ih i

theorem getD_squareEvals_iterate (es : List F) (l i : ℕ) :
    (squareEvals^[l] es).getD i 0 = (es.getD i 0) ^ 2 ^ l := by
  induction l generalizing es with
  | zero => simp
  | succ l ih =>
    rw [Function.iterate_succ_apply, ih, getD_squareEvals]
    have hsq : es.getD i 0 * es.getD i 0 = es.getD i 0 ^ 2 := by ring
    rw [hsq, ← pow_mul, pow_succ 2 l, Nat.mul_comm]

theorem length_squareEvals_iterate (es : List F) (l : ℕ) :
    (squareEvals^[l] es).length = es.length := by
  induction l with
  | zero => rfl
  | succ l ih => rw [Function.iterate_succ_apply', length_squareEvals, ih]

/-- If some adjacent pair of the chain leaves a non-zero remainder after
division by `Z_K`, the quotient loop aborts with
`RemainderAfterDivisionIsNonZero` (whatever happens at the other pairs). -/
theorem chainCheck_error (k : ℕ) (ch : List (PolyL F)) (j : ℕ)
    (hj : j + 1 < ch.length)
    (hfail : isZeroPoly (divModXmSubOne k
      (polySub (polyMul (ch.getD j []) (ch.getD j [])) (ch.getD (j + 1) []))).2
        = false) :
    chainCheck k ch = .error .RemainderAfterDivisionIsNonZero := by
  induction ch generalizing j with
  | nil => simp at hj
  | cons p ch ih =>
    cases ch with
    | nil => simp at hj
    | cons q rest =>
      rw [chainCheck]
      cases j with
      | zero =>
        rw [List.getD_cons_zero, List.getD_cons_succ, List.getD_cons_zero] at hfail
        rw [hfail]
        simp
      | succ j =>
        rw [List.getD_cons_succ, List.getD_cons_succ] at hfail
        have hj2 : j + 1 < (q :: rest).length := by
          simpa using Nat.lt_of_succ_lt_succ hj
        by_cases hz : isZeroPoly (divModXmSubOne k (polySub (polyMul p p) q)).2 = true
        · rw [if_pos hz, ih j hj2 hfail]
          rfl
        · rw [if_neg hz]

theorem getD_map_of_lt {α β : Type} (f : α → β) (l : List α) (i : ℕ)
    (h : i < l.length) (d : β) (d0 : α) :
    (l.map f).getD i d = f (l.getD i d0) := by
  induction l generalizing i with
  | nil => simp at h
  | cons a l ih =>
    cases i with
    | zero => simp
    | succ i =>
      rw [List.map_cons, List.getD_cons_succ, List.getD_cons_succ]
      exact ih i (by simpa using Nat.lt_of_succ_lt_succ h)

theorem getD_range_of_lt (n i : ℕ) (h : i < n) (d : ℕ) :
    (List.range n).getD i d = i := by
  rw [List.getD_eq_getElem _ _ (by simpa using h)]
  simp

section ChainEval

variable (logn k i : ℕ) (kNodes : List F) (interpK : List F → PolyL F)
variable (dPoly : PolyL F) (rand : ℕ → F)

/-- Evaluating one blinded chain polynomial at a `K`-domain point: the
blinding contributes `rand · (α^k - 1) = 0` and interpolation returns the
(iterated-squared) evaluation vector entry. -/
theorem uPoly_eval_at_node (hk : kNodes.length = k) (hk1 : 1 ≤ k)
    (hi : i < k) (hnode : kNodes.getD i 0 ^ k = 1)
    (hInterp : ∀ es : List F, es.length = k → ∀ j, j < k →
      polyEval (interpK es) (kNodes.getD j 0) = es.getD j 0)
    (l : ℕ) (r : F) :
    polyEval (polyAdd (interpK (squareEvals^[l] (dEvaluations kNodes dPoly)))
        (blindedVanishingPoly (vanishingPoly k) r)) (kNodes.getD i 0) =
      polyEval dPoly (kNodes.getD i 0) ^ 2 ^ l := by
  rw [polyEval_add, blindedVanishingPoly, polyEval_smul,
    polyEval_vanishingPoly k hk1, hnode, sub_self, mul_zero, add_zero]
  have hlen : (squareEvals^[l] (dEvaluations kNodes dPoly)).length = k := by
    rw [length_squareEvals_iterate, dEvaluations, List.length_map, hk]
  rw [hInterp _ hlen i hi, getD_squareEvals_iterate, dEvaluations,
    getD_map_of_lt _ _ _ (by rw [hk]; exact hi) _ 0]

theorem getD_replicate_of_lt {α : Type} (c d : α) (k i : ℕ) (h : i < k) :
    (List.replicate k c).getD i d = c := by
  induction k generalizing i with
  | zero => omega
  | succ k ih =>
    cases i with
    | zero => rw [List.replicate_succ, List.getD_cons_zero]
    | succ i =>
      rw [List.replicate_succ, List.getD_cons_succ]
      exact ih i (by omega)

theorem uPolyChain_length (hlogn : 1 ≤ logn) :
    (uPolyChain logn k kNodes interpK dPoly rand).length = logn + 1 := by
  rw [uPolyChain, List.cons_append, List.length_cons, List.length_append,
    uPolyList, List.length_map, List.length_range]
  simp
  omega

/-- Entry `l < logn` of the chain evaluates at a `K`-domain point to the
`2^l`-th power of `D`'s evaluation there. -/
theorem uPolyChain_eval_at_node (hk : kNodes.length = k) (hk1 : 1 ≤ k)
    (hi : i < k) (hnode : kNodes.getD i 0 ^ k = 1)
    (hInterp : ∀ es : List F, es.length = k → ∀ j, j < k →
      polyEval (interpK es) (kNodes.getD j 0) = es.getD j 0)
    (l : ℕ) (hl : l < logn) :
    polyEval ((uPolyChain logn k kNodes interpK dPoly rand).getD l [])
        (kNodes.getD i 0) =
      polyEval dPoly (kNodes.getD i 0) ^ 2 ^ l := by
  cases l with
  | zero => rw [uPolyChain, List.cons_append, List.getD_cons_zero, pow_zero, pow_one]
  | succ l2 =>
    rw [uPolyChain, List.cons_append, List.getD_cons_succ]
    have hl2 : l2 < (uPolyList logn k kNodes interpK dPoly rand).length := by
      rw [uPolyList, List.length_map, List.length_range]
      omega
    have hl3 : l2 < logn - 1 := by
      rw [uPolyList, List.length_map, List.length_range] at hl2
      exact hl2
    rw [List.getD_append _ _ _ _ hl2, uPolyList,
      getD_map_of_lt _ _ _ (by rw [List.length_range]; exact hl3) _ 0,
      getD_range_of_lt _ _ hl3 0]
    exact uPoly_eval_at_node k i kNodes interpK dPoly hk hk1 hi hnode hInterp
      (l2 + 1) (rand l2)

/-- The tail entry `logn` of the chain is the identity polynomial. -/
theorem uPolyChain_getD_last (hlogn : 1 ≤ logn) :
    (uPolyChain logn k kNodes interpK dPoly rand).getD logn [] =
      idPolyK k interpK := by
  obtain ⟨L, rfl⟩ : ∃ L, logn = L + 1 := ⟨logn - 1, by omega⟩
  rw [uPolyChain, List.cons_append, List.getD_cons_succ]
  have hlen : (uPolyList (L + 1) k kNodes interpK dPoly rand).length = L := by
    rw [uPolyList, List.length_map, List.length_range]
    omega
  rw [List.getD_append_right _ _ _ _ (by omega), hlen]
  simp

theorem idPolyK_eval_at_node (hk : kNodes.length = k) (hi : i < k)
    (hInterp : ∀ es : List F, es.length = k → ∀ j, j < k →
      polyEval (interpK es) (kNodes.getD j 0) = es.getD j 0) :
    polyEval (idPolyK k interpK) (kNodes.getD i 0) = 1 := by
  rw [idPolyK, hInterp _ (List.length_replicate k 1) i hi,
    getD_replicate_of_lt _ _ _ _ hi]

/-- If some evaluation of `D` over `K` is not an `n`-th root of unity
(`n = 2^logn`), the final chain pair `(U_{log n - 1}, id)` leaves a
non-zero remainder after division by `Z_K`. -/
theorem last_pair_remainder_nonzero {F : Type} [Field F] [DecidableEq F]
    (L k i : ℕ) (kNodes : List F) (interpK : List F → PolyL F)
    (dPoly : PolyL F) (rand : ℕ → F)
    (hk : kNodes.length = k) (hk1 : 1 ≤ k) (hi : i < k)
    (hnode : kNodes.getD i 0 ^ k = 1)
    (hInterp : ∀ es : List F, es.length = k → ∀ j, j < k →
      polyEval (interpK es) (kNodes.getD j 0) = es.getD j 0)
    (hbad : polyEval dPoly (kNodes.getD i 0) ^ 2 ^ (L + 1) ≠ 1) :
    isZeroPoly (divModXmSubOne k (polySub
      (polyMul ((uPolyChain (L + 1) k kNodes interpK dPoly rand).getD L [])
        ((uPolyChain (L + 1) k kNodes interpK dPoly rand).getD L []))
      ((uPolyChain (L + 1) k kNodes interpK dPoly rand).getD (L + 1) []))).2
        = false := by
  set α := kNodes.getD i 0 with hα
  set p := (uPolyChain (L + 1) k kNodes interpK dPoly rand).getD L [] with hp
  set q := (uPolyChain (L + 1) k kNodes interpK dPoly rand).getD (L + 1) []
    with hq2
  by_contra hcon
  rw [Bool.not_eq_false] at hcon
  have hzero : polyEval (polySub (polyMul p p) q) α = 0 := by
    rw [divModXmSubOne_eval k (polySub (polyMul p p) q) α,
      polyEval_eq_zero_of_isZeroPoly _ hcon, hnode, sub_self, mul_zero,
      add_zero]
  rw [polyEval_sub, polyEval_mul] at hzero
  have hpe : polyEval p α = polyEval dPoly α ^ 2 ^ L := by
    rw [hp, hα]
    exact uPolyChain_eval_at_node (L + 1) k i kNodes interpK dPoly rand hk hk1
      hi hnode hInterp L (by omega)
  have hqe : polyEval q α = 1 := by
    rw [hq2, hα, uPolyChain_getD_last (L + 1) k kNodes interpK dPoly rand (by omega)]
    exact idPolyK_eval_at_node k i kNodes interpK hk hi hInterp
  rw [hpe, hqe, ← pow_add] at hzero
  have h2L : 2 ^ L + 2 ^ L = 2 ^ (L + 1) := by ring
  rw [h2L] at hzero
  exact hbad (by linear_combination hzero)

end ChainEval

theorem interp2_correct_all : ∀ (a b : ZMod 5) (j : ℕ), j < 2 →
    polyEval (interp2 [a, b]) (([1, 4] : List (ZMod 5)).getD j 0) =
      [a, b].getD j 0 := by decide

theorem isEmpty_eq_false_of_length_pos {α : Type} (l : List α)
    (h : 0 < l.length) : l.isEmpty = false := by
  cases l with
  | nil => simp at h
  | cons a t => rfl

/-- C2 (amended): for parameters with `log2(n) ≥ 2`, whenever some
evaluation of the input polynomial `D` over domain `K` is not an `n`-th
root of unity, `multi_unity_prove` aborts with
`RemainderAfterDivisionIsNonZero`: the quotient
`(U_{s-1}(X)^2 - U_s(X)) / Z_K(X)` at some step of the squaring chain
(in particular the last one) has a non-zero remainder.  (For `n = 2`,
i.e. `log2(n) = 1`, the code instead panics: see the counterexample.) -/
theorem multiUnityProve_error_on_non_unity_evals {P : Type}
    (logn k i : ℕ) (kNodes : List F) (interpK : List F → PolyL F)
    (dPoly : PolyL F) (rand : ℕ → F) (rest : List (PolyL F) → Except Error P)
    (hlogn : 2 ≤ logn) (hk : kNodes.length = k) (hk1 : 1 ≤ k) (hi : i < k)
    (hnode : kNodes.getD i 0 ^ k = 1)
    (hInterp : ∀ es : List F, es.length = k → ∀ j, j < k →
      polyEval (interpK es) (kNodes.getD j 0) = es.getD j 0)
    (hbad : polyEval dPoly (kNodes.getD i 0) ^ 2 ^ logn ≠ 1) :
    multiUnityProveModel (2 ^ logn) logn k kNodes interpK dPoly rand rest =
      .error .RemainderAfterDivisionIsNonZero := by
  obtain ⟨L, rfl⟩ : ∃ L, logn = L + 1 := ⟨logn - 1, by omega⟩
  rw [multiUnityProveModel, if_neg (not_not_intro (isPow2_two_pow (L + 1)))]
  have hne : (uPolyList (L + 1) k kNodes interpK dPoly rand).isEmpty = false := by
    apply isEmpty_eq_false_of_length_pos
    rw [uPolyList, List.length_map, List.length_range]
    omega
  rw [if_neg (by rw [hne]; exact Bool.false_ne_true)]
  have hfail := last_pair_remainder_nonzero L k i kNodes interpK dPoly rand
    hk hk1 hi hnode hInterp hbad
  have hcc := chainCheck_error k (uPolyChain (L + 1) k kNodes interpK dPoly rand)
    L (by rw [uPolyChain_length (L + 1) k kNodes interpK dPoly rand (by omega)]; omega)
    hfail
  rw [hcc]

/-- C2 counterexample to the claim as stated: with `n = 2` table segments
(`log2(n) = 1`) and a `D` whose evaluation at the first `K`-point is `2`
(and `2^2 = 4 ≠ 1` in `ZMod 5`, so not all evaluations are `n`-th roots of
unity), `multi_unity_prove` does not return the division-remainder error:
it panics at the out-of-bounds access `u_poly_list[0]` (line 78 of
`multi_unity.rs`) because the squaring loop produced no polynomials. -/
theorem multiUnityProve_claim_counterexample_n_two :
    polyEval ([2] : PolyL (ZMod 5)) (([1, 4] : List (ZMod 5)).getD 0 0) ^ 2 ≠ 1 ∧
    multiUnityProveModel 2 1 2 ([1, 4] : List (ZMod 5)) interp2 [2]
      (fun _ => 0) (fun _ => Except.ok ()) = .error .PanicIndexOutOfBounds ∧
    multiUnityProveModel 2 1 2 ([1, 4] : List (ZMod 5)) interp2 [2]
      (fun _ => 0) (fun _ => Except.ok ()) ≠
        .error .RemainderAfterDivisionIsNonZero := by
  refine ⟨by decide, by decide, by decide⟩

/-- Witness for C2's amended theorem: a concrete run with `n = 4`,
`k = 2`, `K = {1, -1} ⊆ ZMod 5` and `D = 0` (constant), whose evaluations
are not 4-th roots of unity, aborts with the division-remainder error. -/
theorem multiUnityProve_error_on_non_unity_evals_witness :
    multiUnityProveModel (2 ^ 2) 2 2 ([1, 4] : List (ZMod 5)) interp2 [0]
      (fun _ => 0) (fun _ => Except.ok ()) =
      .error .RemainderAfterDivisionIsNonZero :=
  multiUnityProve_error_on_non_unity_evals 2 2 0 [1, 4] interp2 [0]
    (fun _ => 0) (fun _ => Except.ok ())
    (by decide) (by decide) (by decide) (by decide) (by decide)
    (fun es hlen j hj => by
      obtain ⟨a, b, rfl⟩ := List.length_eq_two.mp hlen
      exact interp2_correct_all a b j hj)
    (by decide)

/-- C10: blinding preserves the chain's values on domain `K`: for every
`l` in `1 .. log2(n) - 1`, the blinded polynomial `U_l` (entry `l - 1` of
`u_poly_list`) evaluates at each point of `K` to the `2^l`-th power of
`D`'s evaluation at that point, because the added random multiple of
`Z_K` vanishes on `K`. -/
theorem uPolyList_blinding_preserves_evals
    (logn k i l : ℕ) (kNodes : List F) (interpK : List F → PolyL F)
    (dPoly : PolyL F) (rand : ℕ → F)
    (hl1 : 1 ≤ l) (hl2 : l ≤ logn - 1) (hk : kNodes.length = k)
    (hk1 : 1 ≤ k) (hi : i < k) (hnode : kNodes.getD i 0 ^ k = 1)
    (hInterp : ∀ es : List F, es.length = k → ∀ j, j < k →
      polyEval (interpK es) (kNodes.getD j 0) = es.getD j 0) :
    polyEval ((uPolyList logn k kNodes interpK dPoly rand).getD (l - 1) [])
        (kNodes.getD i 0) =
      polyEval dPoly (kNodes.getD i 0) ^ 2 ^ l := by
  obtain ⟨l2, rfl⟩ : ∃ l2, l = l2 + 1 := ⟨l - 1, by omega⟩
  have hl3 : l2 < logn - 1 := by omega
  simp only [Nat.add_sub_cancel]
  rw [uPolyList,
    getD_map_of_lt _ _ _ (by rw [List.length_range]; exact hl3) _ 0,
    getD_range_of_lt _ _ hl3 0]
  simpa using uPoly_eval_at_node k i kNodes interpK dPoly hk hk1 hi hnode
    hInterp (l2 + 1) (rand l2)

/-- Witness for C10's theorem: with `n = 4`, `K = {1, -1} ⊆ ZMod 5` and
`D = 2` (constant), the blinded `U_1` evaluates at the node `1` to
`2^2 = 4`. -/
theorem uPolyList_blinding_preserves_evals_witness :
    polyEval ((uPolyList 2 2 ([1, 4] : List (ZMod 5)) interp2 [2]
        (fun _ => 1)).getD 0 []) (([1, 4] : List (ZMod 5)).getD 0 0) =
      polyEval ([2] : PolyL (ZMod 5)) (([1, 4] : List (ZMod 5)).getD 0 0) ^ 2 ^ 1 :=
  uPolyList_blinding_preserves_evals 2 2 0 1 [1, 4] interp2 [2] (fun _ => 1)
    (by decide) (by decide) (by decide) (by decide) (by decide) (by decide)
    (fun es hlen j hj => by
      obtain ⟨a, b, rfl⟩ := List.length_eq_two.mp hlen
      exact interp2_correct_all a b j hj)

/-- C1: the range check of `segment_multiplicities` is `i > num_segments`,
an off-by-one: the out-of-range index `i = n` (valid indices are
`0 .. n-1`) is accepted and counted, while the claim (and the spec)
require every index `≥ n` to be rejected.  Index `n + 1` is rejected, so
the check is a strict `>` slip rather than a missing check. -/
theorem segmentMultiplicities_accepts_index_n :
    segmentMultiplicities [4] 4 = .ok [(4, 1)] ∧
    segmentMultiplicities [5] 4 = .error (.InvalidSegmentIndex 5) := by
  refine ⟨by decide, by decide⟩

theorem range_map_getD_eq_drop_take (tv : List F) (s base : ℕ)
    (h : base + s ≤ tv.length) :
    (List.range s).map (fun j => tv.getD (base + j) 0) =
      (tv.drop base).take s := by
  induction s generalizing base with
  | zero => simp
  | succ s ih =>
    rw [List.range_succ_eq_map, List.map_cons, List.map_map]
    have hb : base < tv.length := by omega
    rw [List.drop_eq_getElem_cons hb, List.take_succ_cons]
    have h0 : tv.getD (base + 0) 0 = tv[base] := by
      rw [Nat.add_zero, List.getD_eq_getElem tv 0 hb]
    rw [h0]
    congr 1
    have heq : ((fun j => tv.getD (base + j) 0) ∘ Nat.succ) =
        (fun j => tv.getD (base + 1 + j) 0) := by
      funext j
      simp only [Function.comp_apply]
      congr 1
      omega
    rw [heq, ih (base + 1) (by omega)]

theorem map_flatMap_inner {A B C : Type} (l : List A) (g : A → List B)
    (f : B → C) : (l.flatMap g).map f = l.flatMap (fun a => (g a).map f) := by
  induction l with
  | nil => rfl
  | cons a l ih => rw [List.flatMap_cons, List.flatMap_cons, List.map_append, ih]

theorem evals_map_concat (n s : ℕ) (tableValues : List F)
    (htable : tableValues.length = n * s) (qs : List ℕ)
    (hgood : ∀ seg ∈ qs, seg < n) :
    (qs.flatMap fun seg => (List.range s).map (seg * s + ·)).map
        (fun i => tableValues.getD i 0) =
      qs.flatMap fun seg => (tableValues.drop (seg * s)).take s := by
  induction qs with
  | nil => rfl
  | cons seg rest ih =>
    rw [List.flatMap_cons, List.flatMap_cons, List.map_append,
      ih (fun b hb => hgood b (by simp [hb])), List.map_map]
    have hseg : seg < n := hgood seg (by simp)
    have hb : seg * s + s ≤ tableValues.length := by
      rw [htable]
      calc seg * s + s = (seg + 1) * s := by ring
      _ ≤ n * s := Nat.mul_le_mul_right s hseg
    rw [← range_map_getD_eq_drop_take tableValues s (seg * s) hb]
    rfl

/-- C5: `Witness::new` fails with `InvalidNumberOfQueries` exactly when the
index count differs from `k`; with the count right, it fails with
`InvalidSegmentElementIndex` exactly when some queried segment index is
`≥ n` (its derived element index then falls outside the `n·s` table
values); otherwise it succeeds, and the evaluation list is the
concatenation of the `s` table values of each queried segment in order,
with the witness polynomial its interpolation over domain `V`. -/
theorem witnessNew_spec (n k s : ℕ) (ifftV : List F → PolyL F)
    (tableValues : List F) (hs : 1 ≤ s) (htable : tableValues.length = n * s) :
    (∀ qs : List ℕ, qs.length ≠ k →
      witnessNew k s ifftV tableValues qs =
        .error (.InvalidNumberOfQueries qs.length)) ∧
    (∀ qs : List ℕ, qs.length = k → (∃ seg ∈ qs, n ≤ seg) →
      ∃ idx, witnessNew k s ifftV tableValues qs =
        .error (.InvalidSegmentElementIndex idx)) ∧
    (∀ qs : List ℕ, qs.length = k → (∀ seg ∈ qs, seg < n) →
      witnessNew k s ifftV tableValues qs = .ok
        ⟨ifftV (qs.flatMap fun seg => (tableValues.drop (seg * s)).take s),
          qs.flatMap fun seg => (tableValues.drop (seg * s)).take s, qs⟩) := by
  refine ⟨?_, ?_, ?_⟩
  · intro qs hqs
    rw [witnessNew, if_pos hqs]
  · intro qs hqs hbad
    obtain ⟨idx, hidx⟩ := segmentElementIndices_error n s tableValues.length hs
      htable qs hbad
    refine ⟨idx, ?_⟩
    rw [witnessNew, if_neg (not_not_intro hqs), hidx]
  · intro qs hqs hgood
    rw [witnessNew, if_neg (not_not_intro hqs),
      segmentElementIndices_ok n s tableValues.length htable qs hgood]
    dsimp only
    rw [evals_map_concat n s tableValues htable qs hgood]

/-- Witness for C5's theorem: `n = 2`, `k = 2`, `s = 1`, table `[3, 4]`
over `ZMod 5`, queried indices `[1, 0]`: the witness evaluation list is
the concatenation `[4, 3]` of the queried segments' values. -/
theorem witnessNew_spec_witness :
    witnessNew 2 1 id ([3, 4] : List (ZMod 5)) [1, 0] =
      .ok ⟨[4, 3], [4, 3], [1, 0]⟩ := by
  have h := (witnessNew_spec 2 2 1 id ([3, 4] : List (ZMod 5)) (by decide)
    (by decide)).2.2 [1, 0] (by decide) (by decide)
  rw [h]
  rfl

/-- C9: `Witness::new_with_padding` never returns the count-mismatch error
`InvalidNumberOfQueries`: `Vec::resize` first makes the index list exactly
`k` entries long (truncating or padding with segment index `0`), so the
length check in `Witness::new` always passes and the only reachable error
is the per-index `InvalidSegmentElementIndex`. -/
theorem witnessNewWithPadding_never_count_mismatch (k s : ℕ)
    (ifftV : List F → PolyL F) (tableValues : List F) (qs : List ℕ) (m : ℕ) :
    witnessNewWithPadding k s ifftV tableValues qs ≠
      .error (.InvalidNumberOfQueries m) := by
  rw [witnessNewWithPadding, witnessNew]
  have hlen : (qs.take k ++ List.replicate (k - qs.length) 0).length = k := by
    rw [List.length_append, List.length_take, List.length_replicate]
    omega
  rw [if_neg (not_not_intro hlen)]
  cases hse : segmentElementIndices s tableValues.length
      (qs.take k ++ List.replicate (k - qs.length) 0) with
  | error e =>
    obtain ⟨idx, rfl⟩ := segmentElementIndices_error_only_element_index s
      tableValues.length _ e hse
    intro hc
    exact Error.noConfusion (Except.error.inj hc)
  | ok idxs =>
    intro hc
    exact Except.noConfusion hc

/-- C3: the quotient polynomial committed as `g1_q_l` is not the exact
quotient of `(X^k - 1)·(L(Xv) - w·L(X))` by `Z_V(X)`.  The code divides
before multiplying: since `deg(L(Xv) - w·L(X)) ≤ ks - 1 < ks = deg Z_V`,
the division yields the zero quotient, so the committed `Q_L` is the zero
polynomial.  Concretely, with `n = 2, k = 2, s = 2` over `ZMod 17`
(`w = v = 4`) and witness indices `[0, 0]`, the interpolated `L`
(validated here by re-evaluating it on the domain) gives
`(X^k - 1)·(L(Xv) - w·L(X))` non-zero at `X = 2`, while
`Z_V·Q_L = 0`: no polynomial identity `(X^k-1)(L(Xv)-wL(X)) = Z_V·Q_L`
holds for the committed `Q_L`. -/
theorem indexQL_is_zero_not_exact_quotient :
    (indexPolynomialsAndQuotients 4 4 4 4 2 2 interp4 interp2z17
      [0, 0]).polyQL = [] ∧
    (rootsOfUnity 4 4).map
        (polyEval (indexPolynomialsAndQuotients 4 4 4 4 2 2 interp4 interp2z17
          [0, 0]).polyL) =
      (indexPolynomialsAndQuotients 4 4 4 4 2 2 interp4 interp2z17
        [0, 0]).polyEvalListL ∧
    polyEval (polyMul (((List.replicate 4 (0 : ZMod 17)).set 2 1).set 0 (-1))
        (polySub
          (indexPolynomialsAndQuotients 4 4 4 4 2 2 interp4 interp2z17
            [0, 0]).polyLmulV
          (indexPolynomialsAndQuotients 4 4 4 4 2 2 interp4 interp2z17
            [0, 0]).polyWmulL)) 2 ≠
      polyEval (polyMul (vanishingPoly 4)
        (indexPolynomialsAndQuotients 4 4 4 4 2 2 interp4 interp2z17
          [0, 0]).polyQL) 2 := by
  refine ⟨by decide, by decide, by decide⟩

theorem trailingZerosAux_two_pow (m : ℕ) :
    ∀ fuel, 2 ^ m ≤ fuel → trailingZerosAux fuel (2 ^ m) = m := by
  induction m with
  | zero =>
    intro fuel hfuel
    rw [pow_zero] at hfuel ⊢
    obtain ⟨f, rfl⟩ : ∃ f, fuel = f + 1 := ⟨fuel - 1, by omega⟩
    rfl
  | succ m ih =>
    intro fuel hfuel
    have h2 : 2 ≤ 2 ^ (m + 1) := by
      calc 2 = 2 ^ 1 := by norm_num
      _ ≤ 2 ^ (m + 1) := Nat.pow_le_pow_right (by norm_num) (by omega)
    have hm : 2 ^ m + 2 ^ m = 2 ^ (m + 1) := by ring
    obtain ⟨j, hj⟩ : ∃ j, 2 ^ (m + 1) = j + 1 := ⟨2 ^ (m + 1) - 1, by omega⟩
    obtain ⟨f, rfl⟩ : ∃ f, fuel = f + 1 := ⟨fuel - 1, by omega⟩
    rw [hj, trailingZerosAux]
    have hmod : (j + 1) % 2 = 0 := by omega
    have hdiv : (j + 1) / 2 = 2 ^ m := by omega
    rw [if_neg (by omega), hdiv, ih f (by omega)]

theorem trailingZeros_two_pow (m : ℕ) : trailingZeros (2 ^ m) = m :=
  trailingZerosAux_two_pow m (2 ^ m) le_rfl

theorem nextPow2Aux_pow (fuel n : ℕ) :
    ∀ power, (∃ j, power = 2 ^ j) → ∃ j, nextPow2Aux fuel n power = 2 ^ j := by
  induction fuel with
  | zero => intro power hp; exact hp
  | succ fuel ih =>
    intro power hp
    rw [nextPow2Aux]
    by_cases h : n ≤ power
    · rw [if_pos h]; exact hp
    · rw [if_neg h]
      obtain ⟨j, rfl⟩ := hp
      exact ih (2 ^ j * 2) ⟨j + 1, by ring⟩

theorem nextPow2Aux_ge (fuel n : ℕ) :
    ∀ power, n ≤ power * 2 ^ fuel → n ≤ nextPow2Aux fuel n power := by
  induction fuel with
  | zero => intro power h; simpa using h
  | succ fuel ih =>
    intro power h
    rw [nextPow2Aux]
    by_cases hle : n ≤ power
    · rw [if_pos hle]; exact hle
    · rw [if_neg hle]
      apply ih
      calc n ≤ power * 2 ^ (fuel + 1) := h
      _ = power * 2 * 2 ^ fuel := by ring

theorem nextPow2_is_pow_ge (n : ℕ) :
    (∃ j, nextPow2 n = 2 ^ j) ∧ n ≤ nextPow2 n := by
  refine ⟨nextPow2Aux_pow n n 1 ⟨0, rfl⟩, ?_⟩
  apply nextPow2Aux_ge
  rw [one_mul]
  exact Nat.le_of_lt (Nat.lt_two_pow n)

/-- C7 counterexample to the claim as stated: for `n = 8` table segments
(with `log2(8) = 3`) the Multi-Unity domain built by `setup` has size
`4 = next_power_of_two(3)`, not `3`: `Radix2EvaluationDomain::new`
rounds the requested size up to a power of two. -/
theorem setupDomainLogNSize_eight_ne_log :
    setupDomainLogNSize 8 = 4 ∧ (8 : ℕ) = 2 ^ 3 ∧ setupDomainLogNSize 8 ≠ 3 := by
  refine ⟨by decide, by decide, by decide⟩

/-- C7 (amended): for `n = 2^m` table segments, the small Multi-Unity
evaluation domain has size `next_power_of_two(m)` — the least power of two
at least `log2(n)` — which is a power of two and at least `log2(n)`,
and is equal to `log2(n)` exactly when `log2(n)` is itself a power of two. -/
theorem setupDomainLogNSize_spec (m : ℕ) :
    setupDomainLogNSize (2 ^ m) = nextPow2 m ∧
    (∃ j, setupDomainLogNSize (2 ^ m) = 2 ^ j) ∧
    m ≤ setupDomainLogNSize (2 ^ m) := by
  have h : setupDomainLogNSize (2 ^ m) = nextPow2 m := by
    rw [setupDomainLogNSize, trailingZeros_two_pow]
  refine ⟨h, ?_, ?_⟩
  · rw [h]; exact (nextPow2_is_pow_ge m).1
  · rw [h]; exact (nextPow2_is_pow_ge m).2

/-- C4: every `Proof` returned by `prove` carries the fixed default group
element as `g1_q_b`, independent of the witness: line 167 of `prover.rs`
assembles `g1_q_b: E::G1Affine::default()` and the computed commitment of
`B₀` is dropped, so the bundle does not contain the commitment of `B`'s
defining quotient polynomial as the claim (and the spec) state. -/
theorem proveModel_g1_q_b_is_default {G M : Type} (numSegments logn ksize : ℕ)
    (kNodes : List F) (interpK : List F → PolyL F)
    (multComms : List (ℕ × ℕ) → G × G × G)
    (indexComms : List ℕ → (G × G × G × G × G) × PolyL F)
    (muRest : List (PolyL F) → Except Error M)
    (round10 : M → Except Error (G × G × G))
    (g1Default : G) (queriedSegmentIndices : List ℕ) (rand : ℕ → F)
    (p : ProofRec G M)
    (hok : proveModel numSegments logn ksize kNodes interpK multComms
      indexComms muRest round10 g1Default queriedSegmentIndices rand = .ok p) :
    p.g1_q_b = g1Default := by
  rw [proveModel] at hok
  cases hsm : segmentMultiplicities queriedSegmentIndices numSegments with
  | error e => rw [hsm] at hok; exact Except.noConfusion hok
  | ok mult =>
    rw [hsm, exceptBind_ok] at hok
    rcases hmc : multComms mult with ⟨g1m, g1mdivw, g1qm⟩
    rw [hmc] at hok
    rcases hic : indexComms queriedSegmentIndices with
      ⟨⟨g1l, g1lmulv, g1d, g1ql, g1qd⟩, polyD⟩
    rw [hic] at hok
    dsimp only at hok
    cases hmu : multiUnityProveModel numSegments logn ksize kNodes interpK
        polyD rand muRest with
    | error e => rw [hmu] at hok; exact Except.noConfusion hok
    | ok mu =>
      rw [hmu, exceptBind_ok] at hok
      cases hr : round10 mu with
      | error e => rw [hr] at hok; exact Except.noConfusion hok
      | ok g =>
        rcases g with ⟨g1a, g1qa, g1b⟩
        rw [hr, exceptBind_ok] at hok
        cases hok
        rfl

/-- Witness for C4's theorem: a concrete successful proving run over
`ZMod 5` (with `n = 4`, `k = 2`, `D = 1`, all abstract commitment
parameters constant) returns a proof whose `g1_q_b` is the supplied
default element `7`... (indeed every field is forced). -/
theorem proveModel_g1_q_b_is_default_witness :
    (⟨0, 0, 0, 0, 0, 0, 0, 0, 0, 0, 0, 7, ()⟩ :
      ProofRec (ZMod 17) Unit).g1_q_b = 7 :=
  proveModel_g1_q_b_is_default 4 2 2 ([1, 4] : List (ZMod 5)) interp2
    (fun _ => (0, 0, 0)) (fun _ => ((0, 0, 0, 0, 0), [1]))
    (fun _ => Except.ok ()) (fun _ => Except.ok (0, 0, 0)) 7 [0]
    (fun _ => 0) ⟨0, 0, 0, 0, 0, 0, 0, 0, 0, 0, 0, 7, ()⟩ (by decide)

/-- The only data `multi_unity_prove` reads from the randomness source is
the `log n - 1` blinding scalars of the squaring loop: two sources that
agree on those indices produce the same result. -/
theorem multiUnityProveModel_rand_congr {P : Type} (n logn k : ℕ)
    (kNodes : List F) (interpK : List F → PolyL F) (dPoly : PolyL F)
    (rest : List (PolyL F) → Except Error P) (rand1 rand2 : ℕ → F)
    (hagree : ∀ j, j < logn - 1 → rand1 j = rand2 j) :
    multiUnityProveModel n logn k kNodes interpK dPoly rand1 rest =
      multiUnityProveModel n logn k kNodes interpK dPoly rand2 rest := by
  have hu : uPolyList logn k kNodes interpK dPoly rand1 =
      uPolyList logn k kNodes interpK dPoly rand2 := by
    rw [uPolyList, uPolyList]
    apply List.map_congr_left
    intro j hj
    rw [hagree j (List.mem_range.mp hj)]
  have hc : uPolyChain logn k kNodes interpK dPoly rand1 =
      uPolyChain logn k kNodes interpK dPoly rand2 := by
    rw [uPolyChain, uPolyChain, hu]
  rw [multiUnityProveModel, multiUnityProveModel, hu, hc]

/-- C8: `prove` is deterministic in its inputs and randomness source.  All
sub-computations other than the Multi-Unity blinding are pure functions of
the inputs, and the randomness source is consumed only for the
`log n - 1` blinding scalars, so two runs on identical inputs whose
randomness sources agree in state produce identical `Proof` bundles,
field for field. -/
theorem proveModel_deterministic {G M : Type} (numSegments logn ksize : ℕ)
    (kNodes : List F) (interpK : List F → PolyL F)
    (multComms : List (ℕ × ℕ) → G × G × G)
    (indexComms : List ℕ → (G × G × G × G × G) × PolyL F)
    (muRest : List (PolyL F) → Except Error M)
    (round10 : M → Except Error (G × G × G))
    (g1Default : G) (queriedSegmentIndices : List ℕ)
    (rand1 rand2 : ℕ → F)
    (hagree : ∀ j, j < logn - 1 → rand1 j = rand2 j) :
    proveModel numSegments logn ksize kNodes interpK multComms indexComms
        muRest round10 g1Default queriedSegmentIndices rand1 =
      proveModel numSegments logn ksize kNodes interpK multComms indexComms
        muRest round10 g1Default queriedSegmentIndices rand2 := by
  rw [proveModel, proveModel]
  cases hsm : segmentMultiplicities queriedSegmentIndices numSegments with
  | error e => rfl
  | ok mult =>
    simp only [exceptBind_ok]
    rcases hmc : multComms mult with ⟨g1m, g1mdivw, g1qm⟩
    rcases hic : indexComms queriedSegmentIndices with
      ⟨⟨g1l, g1lmulv, g1d, g1ql, g1qd⟩, polyD⟩
    dsimp only
    rw [multiUnityProveModel_rand_congr numSegments logn ksize kNodes interpK
      polyD muRest rand1 rand2 hagree]

/-- Witness for C8's theorem: with `log n = 2` (one blinding scalar
drawn), two sources agreeing at index `0` — here the streams `j ↦ j` and
`j ↦ if j = 0 then 0 else j + 3` — give identical proof bundles even
though they differ from index `1` on. -/
theorem proveModel_deterministic_witness :
    proveModel 4 2 2 ([1, 4] : List (ZMod 5)) interp2 (fun _ => ((0 : ZMod 17), (0 : ZMod 17), (0 : ZMod 17)))
        (fun _ => ((0, 0, 0, 0, 0), [1])) (fun _ => Except.ok ())
        (fun _ => Except.ok (0, 0, 0)) 7 [0] (fun j => (j : ZMod 5)) =
      proveModel 4 2 2 ([1, 4] : List (ZMod 5)) interp2 (fun _ => ((0 : ZMod 17), (0 : ZMod 17), (0 : ZMod 17)))
        (fun _ => ((0, 0, 0, 0, 0), [1])) (fun _ => Except.ok ())
        (fun _ => Except.ok (0, 0, 0)) 7 [0]
        (fun j => if j = 0 then 0 else (j : ZMod 5) + 3) :=
  proveModel_deterministic 4 2 2 [1, 4] interp2 _ _ _ _ 7 [0]
    (fun j => (j : ZMod 5)) (fun j => if j = 0 then 0 else (j : ZMod 5) + 3)
    (fun j hj => by
      have hj0 : j = 0 := by omega
      rw [hj0]
      decide)

theorem rootsOfUnity_getD (w : F) (N i : ℕ) (hi : i < N) :
    (rootsOfUnity w N).getD i 0 = w ^ i := by
  rw [rootsOfUnity, getD_map_of_lt _ _ _ (by simpa using hi) _ 0,
    getD_range_of_lt _ _ hi 0]

theorem q2Values_getD (w : F) (N i : ℕ) (hi : i < N) :
    (q2Values w N).getD i 0 = w ^ i / (N : F) := by
  rw [q2Values, getD_map_of_lt _ _ _ (by simp [rootsOfUnity, hi]) _ 0,
    rootsOfUnity_getD w N i hi]

open Polynomial Lagrange in
/-- C6: for every `i < n·s`, the precomputed `g1_q2_list[i]` is the
commitment of the constant polynomial `w^i/(n·s)`, and that constant is
the exact quotient `Q_{i,2}` in
`Lagrange_i(X)·X = w^i·Lagrange_i(X) + Z_W(X)·Q_{i,2}(X)` over the domain
`W` of size `N = n·s` generated by the primitive root `w`. -/
theorem g1Q2List_commits_exact_quotient (N i : ℕ) (w : F) (srs : List G)
    (hN : 0 < N) (hw : IsPrimitiveRoot w N) (hNF : (N : F) ≠ 0) (hi : i < N)
    (hsrs : srs ≠ []) :
    (g1Q2List srs w N).getD i 0 =
      msmCommit srs [(q2Values w N).getD i 0] ∧
    Lagrange.basis (Finset.range N) (fun j => w ^ j) i * X =
      C (w ^ i) * Lagrange.basis (Finset.range N) (fun j => w ^ j) i +
        (X ^ N - 1) * C ((q2Values w N).getD i 0) := by
  constructor
  · obtain ⟨g0, rest, rfl⟩ : ∃ g0 rest, srs = g0 :: rest := by
      cases srs with
      | nil => exact absurd rfl hsrs
      | cons a t => exact ⟨a, t, rfl⟩
    rw [g1Q2List, getD_map_of_lt _ _ _ (by simp [q2Values, rootsOfUnity, hi]) _ 0]
    rw [msmCommit]
    simp
  · rw [q2Values_getD w N i hi]
    set v : ℕ → F := fun j => w ^ j with hv
    have hmem : i ∈ Finset.range N := Finset.mem_range.mpr hi
    have hinj : Set.InjOn v (Finset.range N) := by
      intro a ha b hb hab
      exact hw.pow_inj (Finset.mem_range.mp ha) (Finset.mem_range.mp hb) hab
    -- Step 1: the nodal polynomial of the domain is X^N - 1.
    have hnodal : Lagrange.nodal (Finset.range N) v = X ^ N - 1 := by
      have h1 : (X ^ N - (1 : F[X])) = X ^ N - C 1 := by rw [map_one]
      rw [h1]
      apply Polynomial.eq_of_degree_le_of_eval_index_eq (Finset.range N) hinj
      · rw [Lagrange.degree_nodal]
      · rw [Lagrange.degree_nodal, Polynomial.degree_X_pow_sub_C hN]
        simp
      · rw [Monic.leadingCoeff Lagrange.nodal_monic,
          Monic.leadingCoeff (Polynomial.monic_X_pow_sub_C (1 : F) hN.ne')]
      · intro j hj
        rw [Lagrange.eval_nodal_at_node hj]
        have hvj : v j ^ N = 1 := by
          rw [hv]
          dsimp only
          rw [← pow_mul, mul_comm, pow_mul, hw.pow_eq_one, one_pow]
        simp [hvj]
    -- Step 2: the nodal weight is w^i / N.
    have hz : v i ^ N = 1 := by
      rw [hv]
      dsimp only
      rw [← pow_mul, mul_comm, pow_mul, hw.pow_eq_one, one_pow]
    have hzne : v i ≠ 0 := by
      intro h0
      rw [h0, zero_pow hN.ne'] at hz
      exact zero_ne_one hz
    have hweight : Lagrange.nodalWeight (Finset.range N) v i = v i / (N : F) := by
      rw [Lagrange.nodalWeight_eq_eval_nodal_derative hmem, hnodal]
      have hder : Polynomial.derivative ((X : F[X]) ^ N - 1) =
          C (N : F) * X ^ (N - 1) := by
        rw [derivative_sub, derivative_one, derivative_X_pow, sub_zero]
      rw [hder]
      have heval : eval (v i) (C (N : F) * X ^ (N - 1)) =
          (N : F) * v i ^ (N - 1) := by
        rw [eval_mul, eval_C, eval_pow, eval_X]
      rw [heval]
      have hone : v i ^ (N - 1) * v i = 1 := by
        rw [← pow_succ]
        have hNs : N - 1 + 1 = N := by omega
        rw [hNs, hz]
      apply inv_eq_of_mul_eq_one_right
      field_simp
      linear_combination (N : F) * hone
    -- Step 3: assemble.
    have hbasis : Lagrange.basis (Finset.range N) v i =
        C (Lagrange.nodalWeight (Finset.range N) v i) *
          Lagrange.nodal ((Finset.range N).erase i) v := by
      rw [Lagrange.basis_eq_prod_sub_inv_mul_nodal_div hmem,
        ← Lagrange.nodal_erase_eq_nodal_div hmem]
    have hmul : Lagrange.basis (Finset.range N) v i * (X - C (v i)) =
        C (Lagrange.nodalWeight (Finset.range N) v i) *
          Lagrange.nodal (Finset.range N) v := by
      rw [hbasis, Lagrange.nodal_eq_mul_nodal_erase hmem]
      ring
    rw [hnodal, hweight] at hmul
    have hvi : v i = w ^ i := rfl
    rw [hvi] at hmul
    linear_combination hmul

theorem isPrimitiveRoot_two_four_zmod5 : IsPrimitiveRoot (2 : ZMod 5) 4 :=
  (IsPrimitiveRoot.iff (by norm_num)).mpr
    ⟨by decide, by intro l h1 h2; interval_cases l <;> decide⟩

open Polynomial in
/-- Witness for C6's theorem: the domain of size `4` in `ZMod 5`
generated by the primitive root `2`, at index `i = 1`, with the
one-element SRS `[1]`. -/
theorem g1Q2List_commits_exact_quotient_witness :
    (g1Q2List ([1] : List (ZMod 5)) (2 : ZMod 5) 4).getD 1 0 =
      msmCommit ([1] : List (ZMod 5)) [(q2Values (2 : ZMod 5) 4).getD 1 0] ∧
    Lagrange.basis (Finset.range 4) (fun j => (2 : ZMod 5) ^ j) 1 * X =
      C ((2 : ZMod 5) ^ 1) * Lagrange.basis (Finset.range 4)
          (fun j => (2 : ZMod 5) ^ j) 1 +
        (X ^ 4 - 1) * C ((q2Values (2 : ZMod 5) 4).getD 1 0) :=
  g1Q2List_commits_exact_quotient 4 1 (2 : ZMod 5) ([1] : List (ZMod 5))
    (by decide) isPrimitiveRoot_two_four_zmod5 (by decide) (by decide)
    (by decide)

end Thms

end SegLookup
